import Mathlib

/-!
Verification of the trackast call-graph core.

This file shallowly embeds the Rust sources of the trackast repository
(`trackast-lib/src/{ast,function_id,graph,builder,traversal,query,cycles}`
and `trackast/src/{resolver,translators}`) into Lean and proves or refutes
the frozen specification claims about them.

Modelling conventions:
* `FunctionId` is a newtype over `String` in Rust; we use `String` directly.
* Rust `HashMap<FunctionId, V>` is modelled as an association list
  `List (String × V)` kept in insertion order; `HashSet<FunctionId>` as a
  `List String` used only through membership.
* Fallible Rust functions returning `Result<T, String>` become
  `Except String T`.
* The two graph-search loops (`dfs_traversal` / `bfs_traversal`) and the
  cycle-search loop are given an explicit fuel argument; a sufficiency
  lemma shows the fuel chosen in the wrappers never runs out, so the
  fuelled functions agree with the (always terminating) Rust loops.
-/

/-! ## Definitions (shallow embedding of the source) -/

/-- Rust `Signature { params: Vec<(String, String)>, return_type: String }`
(trackast-lib/src/ast/types.rs). -/
structure Signature where
  params : List (String × String)
  return_type : String
deriving DecidableEq, Repr

/-- Rust `Signature::empty()`: no params, return type `"()"`. -/
def Signature.empty : Signature :=
  { params := [], return_type := "()" }

/-- Rust `impl Display for Signature`: `({name}: {ty}, ...) -> {return_type}`. -/
def Signature.toString (s : Signature) : String :=
  let params_str := String.intercalate ", " (s.params.map (fun p => p.1 ++ ": " ++ p.2))
  "(" ++ params_str ++ ") -> " ++ s.return_type

/-- Rust `generate_id` (trackast-lib/src/function_id/mod.rs):
`format!("{module}::{name}::{sig_str}")`. -/
def generate_id (module name : String) (signature : Signature) : String :=
  module ++ "::" ++ name ++ "::" ++ signature.toString

/-- Rust `FunctionCall` (trackast-lib/src/ast/types.rs). -/
structure FunctionCall where
  target_name : String
  target_module : Option String
  line : Nat
deriving DecidableEq, Repr

/-- Rust `FunctionDef` (trackast-lib/src/ast/types.rs). -/
structure FunctionDef where
  name : String
  signature : Signature
  calls : List FunctionCall
  module : String
deriving DecidableEq, Repr

/-- Rust `FunctionDef::new(name, signature, module)` (empty call list). -/
def FunctionDef.new (name : String) (signature : Signature) (module : String) : FunctionDef :=
  { name := name, signature := signature, calls := [], module := module }

/-- Rust `FunctionDef::fn_id()`. -/
def FunctionDef.fn_id (f : FunctionDef) : String :=
  generate_id f.module f.name f.signature

/-- Rust `AbstractAST` (trackast-lib/src/ast/types.rs). -/
structure AbstractAST where
  functions : List FunctionDef
  module_path : String
deriving DecidableEq, Repr

/-- Rust `GraphNode` (trackast-lib/src/graph/mod.rs). The Rust field
`is_external` is kept under the same name. -/
structure GraphNode where
  id : String
  is_external : Bool
  metadata : FunctionDef
deriving DecidableEq, Repr

/-- Rust `GraphNode::internal`. -/
def GraphNode.internal (id : String) (metadata : FunctionDef) : GraphNode :=
  { id := id, is_external := false, metadata := metadata }

/-- Rust `GraphNode::external`. -/
def GraphNode.ext (id : String) (metadata : FunctionDef) : GraphNode :=
  { id := id, is_external := true, metadata := metadata }

/-- Rust `GraphEdge`; the Rust fields `from` / `to` are Lean keywords, so
they are named `fromId` / `toId` here. -/
structure GraphEdge where
  fromId : String
  toId : String
  line : Nat
deriving DecidableEq, Repr

/-- Rust `CallGraph { nodes: HashMap<FunctionId, GraphNode>, edges: Vec<GraphEdge> }`.
The hash map is modelled as an association list in insertion order. -/
structure CallGraph where
  nodes : List (String × GraphNode)
  edges : List GraphEdge
deriving DecidableEq, Repr

/-- `HashMap::contains_key` on the association-list model. -/
def containsKey (l : List (String × GraphNode)) (k : String) : Bool :=
  l.any (fun p => p.1 == k)

/-- Rust `CallGraph::new()`. -/
def CallGraph.new : CallGraph :=
  { nodes := [], edges := [] }

/-- Rust `CallGraph::insert_node`: errors when the id is already present. -/
def CallGraph.insert_node (g : CallGraph) (node : GraphNode) : Except String CallGraph :=
  if containsKey g.nodes node.id then
    .error ("Node already exists: " ++ node.id)
  else
    .ok { g with nodes := g.nodes ++ [(node.id, node)] }

/-- Rust `CallGraph::insert_edge`: errors when either endpoint is absent. -/
def CallGraph.insert_edge (g : CallGraph) (edge : GraphEdge) : Except String CallGraph :=
  if !containsKey g.nodes edge.fromId then
    .error ("From node does not exist: " ++ edge.fromId)
  else if !containsKey g.nodes edge.toId then
    .error ("To node does not exist: " ++ edge.toId)
  else
    .ok { g with edges := g.edges ++ [edge] }

/-- Rust `CallGraph::get_edges_from`. -/
def CallGraph.get_edges_from (g : CallGraph) (id : String) : List GraphEdge :=
  g.edges.filter (fun e => e.fromId == id)

/-- Prefix test on character lists (used to model Rust `str::starts_with`;
`String.startsWith` is byte-based and does not reduce in the kernel). -/
def beginsWith : List Char → List Char → Bool
  | [], _ => true
  | _ :: _, [] => false
  | a :: as1, b :: bs => a == b && beginsWith as1 bs

/-- `s.starts_with p` from Rust, on the character-list representation. -/
def strBeginsWith (s p : String) : Bool := beginsWith p.data s.data

/-- The external id the Builder formats for a call with no target module:
`format!("<external>::{}::{}", call.target_name, "()")`
(trackast-lib/src/builder/mod.rs, build). -/
def externalId (name : String) : String :=
  "<external>::" ++ name ++ "::" ++ "()"

/-- The placeholder `FunctionDef` the Builder attaches to synthesized
external nodes. -/
def externalDef (name : String) : FunctionDef :=
  FunctionDef.new name Signature.empty "<external>"

/-- Rust `CallGraphBuilder` (trackast-lib/src/builder/mod.rs). -/
structure CallGraphBuilder where
  asts : List AbstractAST
  functions_map : List (String × FunctionDef)
deriving DecidableEq, Repr

/-- Rust `CallGraphBuilder::new()`. -/
def CallGraphBuilder.new : CallGraphBuilder :=
  { asts := [], functions_map := [] }

/-- `contains_key` on the builder's function map. -/
def mapContains (m : List (String × FunctionDef)) (k : String) : Bool :=
  m.any (fun p => p.1 == k)

/-- The `for func in &ast.functions` loop of `add_ast`: inserts each
function keyed by its id, stopping with an error at the first duplicate.
The partially updated map is returned in either case, because the Rust
loop mutates `self.functions_map` in place before detecting a duplicate. -/
def addLoop (m : List (String × FunctionDef)) :
    List FunctionDef → Except String Unit × List (String × FunctionDef)
  | [] => (.ok (), m)
  | f :: fs =>
    let fn_id := f.fn_id
    if mapContains m fn_id then
      (.error ("Duplicate function ID: " ++ fn_id), m)
    else
      addLoop (m ++ [(fn_id, f)]) fs

/-- Rust `CallGraphBuilder::add_ast`. Returns the call's result together
with the builder state after the call (partial insertions survive an
error; the ast list is extended only on success). -/
def CallGraphBuilder.add_ast (b : CallGraphBuilder) (ast : AbstractAST) :
    Except String Unit × CallGraphBuilder :=
  match addLoop b.functions_map ast.functions with
  | (.ok _, m) => (.ok (), { asts := b.asts ++ [ast], functions_map := m })
  | (.error e, m) => (.error e, { b with functions_map := m })

/-- The node-insertion phase of `build`: one internal `GraphNode` per
indexed function. -/
def insertInternalNodes (g : CallGraph) :
    List (String × FunctionDef) → Except String CallGraph
  | [] => .ok g
  | (fn_id, func_def) :: rest =>
    match g.insert_node (GraphNode.internal fn_id func_def) with
    | .error e => .error e
    | .ok g1 => insertInternalNodes g1 rest

/-- The target id `build` forms for a call: module-qualified with the
empty signature when a target module is present, the `<external>` id
otherwise. -/
def callTargetId (call : FunctionCall) : String :=
  match call.target_module with
  | some target_module => generate_id target_module call.target_name Signature.empty
  | none => externalId call.target_name

/-- The first synthesis step of the per-call loop in `build`: for a call
with no target module, insert the `<external>` node if it is absent. -/
def ensureExternalForNone (g : CallGraph) (call : FunctionCall) : Except String CallGraph :=
  match call.target_module with
  | some _ => .ok g
  | none =>
    if containsKey g.nodes (externalId call.target_name) then .ok g
    else g.insert_node (GraphNode.ext (externalId call.target_name)
      (externalDef call.target_name))

/-- The second synthesis step: if the target id is still absent and does
not start with `<external>`, insert an external node under the
module-qualified id. -/
def ensureTargetNode (g1 : CallGraph) (to_id : String) (call : FunctionCall) :
    Except String CallGraph :=
  if !containsKey g1.nodes to_id && !(strBeginsWith to_id "<external>") then
    g1.insert_node (GraphNode.ext to_id (externalDef call.target_name))
  else .ok g1

/-- The body of the per-call loop in `build`: resolve the target id,
synthesize external nodes as needed, then insert the edge. -/
def processOneCall (g : CallGraph) (from_id : String) (call : FunctionCall) :
    Except String CallGraph :=
  match ensureExternalForNone g call with
  | .error e => .error e
  | .ok g1 =>
    match ensureTargetNode g1 (callTargetId call) call with
    | .error e => .error e
    | .ok g2 =>
      g2.insert_edge { fromId := from_id, toId := callTargetId call, line := call.line }

/-- The `for call in &func_def.calls` loop of `build`. -/
def processCalls (g : CallGraph) (from_id : String) :
    List FunctionCall → Except String CallGraph
  | [] => .ok g
  | call :: rest =>
    match processOneCall g from_id call with
    | .error e => .error e
    | .ok g1 => processCalls g1 from_id rest

/-- The `for func_def in self.functions_map.values()` loop of `build`. -/
def processFunctions (g : CallGraph) :
    List (String × FunctionDef) → Except String CallGraph
  | [] => .ok g
  | (_, func_def) :: rest =>
    match processCalls g func_def.fn_id func_def.calls with
    | .error e => .error e
    | .ok g1 => processFunctions g1 rest

/-- Rust `CallGraphBuilder::build`. -/
def CallGraphBuilder.build (b : CallGraphBuilder) : Except String CallGraph :=
  match insertInternalNodes CallGraph.new b.functions_map with
  | .error e => .error e
  | .ok g => processFunctions g b.functions_map

/-- A `main` function in module `m` calling `println` with no target module
(spec scenario "External synthesis"). -/
def mainDef5 : FunctionDef :=
  { name := "main", signature := Signature.empty,
    calls := [{ target_name := "println", target_module := none, line := 5 }],
    module := "m" }

def ast5 : AbstractAST := { functions := [mainDef5], module_path := "m" }

def cb5 : CallGraphBuilder := (CallGraphBuilder.new.add_ast ast5).2

/-- A `main` function whose single call carries target module `foo`, while
no function `foo::helper` is indexed: `build` synthesizes an external node
with the module-qualified id. -/
def mainDef3 : FunctionDef :=
  { name := "main", signature := Signature.empty,
    calls := [{ target_name := "helper", target_module := some "foo", line := 1 }],
    module := "m" }

def ast3 : AbstractAST := { functions := [mainDef3], module_path := "m" }

def cb3 : CallGraphBuilder := (CallGraphBuilder.new.add_ast ast3).2

def bDef2 : FunctionDef := FunctionDef.new "b" Signature.empty "m"

def aDef2 : FunctionDef := FunctionDef.new "a" Signature.empty "m"

def astB2 : AbstractAST := { functions := [bDef2], module_path := "m" }

/-- An ast whose second function collides with an already indexed id while
its first function is new. -/
def astAB2 : AbstractAST := { functions := [aDef2, bDef2], module_path := "m" }

/-- Builder that already indexes `m::b::() -> ()`. -/
def b0c2 : CallGraphBuilder := (CallGraphBuilder.new.add_ast astB2).2

/-- Splitting a character list at every `::` occurrence (models Rust
`str::split("::")` and is used to read off an id's components). -/
def splitCols : List Char → List Char → List String
  | acc, ':' :: ':' :: rest => String.mk acc.reverse :: splitCols [] rest
  | acc, c :: rest => splitCols (c :: acc) rest
  | acc, [] => [String.mk acc.reverse]

/-- The `::`-separated components of a string. -/
def splitOnCC (s : String) : List String := splitCols [] s.data

/-- The per-node condition asserted by claim C3: the id's module component
is `<external>` and its signature component is the empty-signature string. -/
def nodeMatchesC3 (id : String) : Bool :=
  ((splitOnCC id).head? == some "<external>") &&
    ((splitOnCC id).getLast? == some "() -> ()")

/-- Claim C3 stated as a boolean checker over a graph. -/
def claimC3 (g : CallGraph) : Bool :=
  g.nodes.all (fun p => !p.2.is_external || nodeMatchesC3 p.1)

/-- Splitting a character list at every `.` (for Rust `Path::file_stem`). -/
def splitDot : List Char → List Char → List String
  | acc, '.' :: rest => String.mk acc.reverse :: splitDot [] rest
  | acc, c :: rest => splitDot (c :: acc) rest
  | acc, [] => [String.mk acc.reverse]

/-- Rust `Path::file_stem` on a single path component: the portion before
the last `.`, unless the name begins with `.` and has no other dot. -/
def fileStem (name : String) : String :=
  match splitDot [] name.data with
  | [] => name
  | [_] => name
  | "" :: rest =>
    if rest.length == 1 then name
    else "." ++ String.intercalate "." rest.dropLast
  | parts => String.intercalate "." parts.dropLast

/-- `PythonTranslator::extract_module_path` (trackast/src/translators/python.rs),
identical in javascript.rs: file stem, prefixed by the parent directory
components joined with `::` whenever the parent is neither empty nor `.`. -/
def extract_module_path (comps : List String) : Except String String :=
  match comps.getLast? with
  | none => .error "Invalid file path"
  | some name =>
    let stem := fileStem name
    let parent := comps.dropLast
    if parent.isEmpty || parent == ["."] then .ok stem
    else .ok (String.intercalate "::" parent ++ "::" ++ stem)

/-- The module derivation of `impl Translator for RustTranslator`
(trackast/src/translators/rust.rs, translate_file with `module_path = None`):
only the file stem is used (`"root"` when there is none); parent
directories are ignored. -/
def rustDerivedModule (comps : List String) : String :=
  match comps.getLast? with
  | none => "root"
  | some name => fileStem name

/-- One linear scan of `all_functions` for a given module level: the first
`FunctionDef` matching name and module, returned as `(module, name)`.
Each of the three loops in `resolve_call` is one such scan. -/
def findMatch (call_name mod : String) (fns : List FunctionDef) : Option (String × String) :=
  match fns.find? (fun f => f.name == call_name && f.module == mod) with
  | some f => some (f.module, f.name)
  | none => none

/-- The `for i in (1..parts.len()).rev()` loop of `resolve_call`: try the
prefix of length `i`, then shorter ones. `searchParents … n` tries the
prefix lengths `n, n-1, …, 1`. -/
def searchParents (call_name : String) (parts : List String) (fns : List FunctionDef) :
    Nat → Option (String × String)
  | 0 => none
  | i + 1 =>
    match findMatch call_name (String.intercalate "::" (parts.take (i + 1))) fns with
    | some r => some r
    | none => searchParents call_name parts fns i

/-- Rust `resolve_call` (trackast/src/resolver/rust.rs): current module,
then parent-module prefixes from longest to shortest, then the empty
(root) module. -/
def resolve_call (call_name current_module : String) (all_functions : List FunctionDef) :
    Option (String × String) :=
  match findMatch call_name current_module all_functions with
  | some r => some r
  | none =>
    let parts := splitOnCC current_module
    match searchParents call_name parts all_functions (parts.length - 1) with
    | some r => some r
    | none => findMatch call_name "" all_functions

/-- The search order stated by the specification: the current module, the
proper `::`-prefixes of the current module from longest to shortest, and
finally the empty module path. -/
def searchLevels (current_module : String) : List String :=
  let parts := splitOnCC current_module
  (current_module :: (List.range (parts.length - 1)).reverse.map
      (fun i => String.intercalate "::" (parts.take (i + 1)))) ++ [""]

/-- First-match search over a list of module levels (the specification's
description of the resolver as one top-to-bottom search). -/
def firstHit (call_name : String) (fns : List FunctionDef) :
    List String → Option (String × String)
  | [] => none
  | m :: ms =>
    match findMatch call_name m fns with
    | some r => some r
    | none => firstHit call_name fns ms

/-- Rust `Cycle { nodes: Vec<FunctionId> }` (named `GraphCycle` here
because Mathlib already declares `Cycle`). -/
structure GraphCycle where
  nodes : List String
deriving DecidableEq, Repr

/-- Rust `Cycle::len`. -/
def GraphCycle.len (c : GraphCycle) : Nat := c.nodes.length

/-- The self-cycle check of `find_cycles`: one length-1 cycle per self-edge
of the start node. -/
def selfCycles (g : CallGraph) (start : String) : List GraphCycle :=
  (g.get_edges_from start).filterMap
    (fun e => if e.toId == start then some ⟨[start]⟩ else none)

/-- Strict lexicographic comparison of character lists by code point
(agrees with Rust's byte-wise `Ord` on the ASCII ids used here). -/
def charsLt : List Char → List Char → Bool
  | [], [] => false
  | [], _ :: _ => true
  | _ :: _, [] => false
  | a :: as1, b :: bs => if a == b then charsLt as1 bs else decide (a.toNat < b.toNat)

/-- `a < b` on strings, via `charsLt` (kernel-reducible). -/
def strLtB (a b : String) : Bool := charsLt a.data b.data

/-- Lexicographic `≤` on lists of strings: the sort key order used by
`cycles.sort_by_key(|c| c.nodes.clone())`. -/
def listLeStr : List String → List String → Bool
  | [], _ => true
  | _ :: _, [] => false
  | x :: xs, y :: ys => if x == y then listLeStr xs ys else strLtB x y

/-- The inner `for edge in graph.get_edges_from(&current)` loop of the
cycle BFS: records a cycle when an edge returns to the start on a path of
length > 1, otherwise enqueues unvisited targets while the path is shorter
than the node count. The queue/visited/cycles state threads through the
edges exactly as the Rust loop mutates it. -/
def cycleStep (g : CallGraph) (start : String) (path : List String) :
    List GraphEdge → List (String × List String) → List String → List GraphCycle →
    List (String × List String) × List String × List GraphCycle
  | [], queue, visited, cycles => (queue, visited, cycles)
  | e :: es, queue, visited, cycles =>
    if e.toId == start && decide (1 < path.length) then
      cycleStep g start path es queue visited (cycles ++ [⟨path⟩])
    else if !(visited.contains e.toId) && decide (path.length < g.nodes.length) then
      cycleStep g start path es (queue ++ [(e.toId, path ++ [e.toId])])
        (e.toId :: visited) cycles
    else
      cycleStep g start path es queue visited cycles

/-- The `while let Some((current, path)) = queue.pop_front()` loop of
`find_cycles`, with fuel. Each enqueue inserts a fresh element into
`visited`, so at most `edges.length` pushes ever happen and the fuel
chosen by `findCyclesLoop` (pops ≤ pushes + 1) never runs out. -/
def cycleBfs (g : CallGraph) (start : String) :
    Nat → List (String × List String) → List String → List GraphCycle → List GraphCycle
  | 0, _, _, cycles => cycles
  | _ + 1, [], _, cycles => cycles
  | fuel + 1, (current, path) :: qrest, visited, cycles =>
    match cycleStep g start path (g.get_edges_from current) qrest visited cycles with
    | (q2, v2, c2) => cycleBfs g start fuel q2 v2 c2

/-- The `for start_node in graph.nodes.keys()` loop of `find_cycles`.
Only the start node itself is added to `visited_global` per iteration. -/
def findCyclesLoop (g : CallGraph) :
    List String → List String → List GraphCycle → List GraphCycle
  | [], _, cycles => cycles
  | s :: rest, visited_global, cycles =>
    if visited_global.contains s then
      findCyclesLoop g rest visited_global cycles
    else
      let cycles1 := cycles ++ selfCycles g s
      let cycles2 := cycleBfs g s (g.nodes.length + g.edges.length + 2) [(s, [s])] [s] cycles1
      findCyclesLoop g rest (s :: visited_global) cycles2

/-- Insertion step of a stable insertion sort (later elements go after
equal earlier ones, matching `sort_by_key`'s stability). -/
def insertLe (le : GraphCycle → GraphCycle → Bool) (x : GraphCycle) : List GraphCycle → List GraphCycle
  | [] => [x]
  | y :: ys => if le y x then y :: insertLe le x ys else x :: y :: ys

/-- Stable sort used to model `cycles.sort_by_key(|c| c.nodes.clone())`. -/
def sortCycles (l : List GraphCycle) : List GraphCycle :=
  l.foldl (fun acc x => insertLe (fun c1 c2 => listLeStr c1.nodes c2.nodes) x acc) []

/-- Tail of `Vec::dedup`: removes elements equal to the running
predecessor, keeping the first of each run. -/
def dedupAdjAux (prev : GraphCycle) : List GraphCycle → List GraphCycle
  | [] => []
  | c :: rest =>
    if c.nodes == prev.nodes then dedupAdjAux prev rest
    else c :: dedupAdjAux c rest

/-- Rust `Vec::dedup`: drop consecutive repeated cycles. -/
def dedupAdj : List GraphCycle → List GraphCycle
  | [] => []
  | c :: rest => c :: dedupAdjAux c rest

/-- Rust `find_cycles` (trackast-lib/src/cycles/mod.rs). -/
def find_cycles (g : CallGraph) : List GraphCycle :=
  dedupAdj (sortCycles (findCyclesLoop g (g.nodes.map Prod.fst) [] []))

/-- Rust `has_cycles`. -/
def has_cycles (g : CallGraph) : Bool :=
  !(find_cycles g).isEmpty

/-- The three-node graph of the claim: nodes `{a, b, c}` and edges
`a→b, b→c, c→a`. -/
def g3 : CallGraph :=
  { nodes :=
      [("a", GraphNode.internal "a" (FunctionDef.new "a" Signature.empty "root")),
       ("b", GraphNode.internal "b" (FunctionDef.new "b" Signature.empty "root")),
       ("c", GraphNode.internal "c" (FunctionDef.new "c" Signature.empty "root"))],
    edges := [⟨"a", "b", 1⟩, ⟨"b", "c", 2⟩, ⟨"c", "a", 3⟩] }

/-- The same graph with the edge `c→a` removed. -/
def g3b : CallGraph :=
  { nodes := g3.nodes, edges := [⟨"a", "b", 1⟩, ⟨"b", "c", 2⟩] }

/-- Rust `TraversalResult { reachable: HashSet<FunctionId>, visited_order: Vec<FunctionId> }`.
The hash set is modelled as a list used only through membership. -/
structure TraversalResult where
  reachable : List String
  visited_order : List String
deriving DecidableEq, Repr

/-- Rust `TraversalResult::new()`. -/
def TraversalResult.new : TraversalResult :=
  { reachable := [], visited_order := [] }

/-- Rust `TraversalResult::add_node`: insert unless already reached. -/
def TraversalResult.add_node (r : TraversalResult) (id : String) : TraversalResult :=
  if r.reachable.contains id then r
  else { reachable := id :: r.reachable, visited_order := r.visited_order ++ [id] }

/-- Rust `TraversalResult::merge`: fold `other`'s visit order through the
same insert-unless-present step. -/
def TraversalResult.merge (r other : TraversalResult) : TraversalResult :=
  other.visited_order.foldl TraversalResult.add_node r

/-- The targets pushed when visiting `current`: `edge.to` of every edge
from `current` whose target is not yet visited. -/
def pushTargets (g : CallGraph) (visited2 : List String) (current : String) : List String :=
  ((g.get_edges_from current).map (fun e => e.toId)).filter (fun t => !visited2.contains t)

/-- The common worklist loop of `dfs_traversal` (`newFirst = true`: stack,
pushed targets are popped last-edge-first) and `bfs_traversal`
(`newFirst = false`: queue, targets appended at the back). Targets of
edges from the current node are filtered against the updated visited set
exactly as in the Rust loops, which check `!visited.contains(&edge.to)`
after inserting the current node. Fuel-based; `searchFuel` below always
suffices (lemma `searchLoop_reachable`). -/
def searchLoop (g : CallGraph) (newFirst : Bool) :
    Nat → List String → List String → TraversalResult → TraversalResult
  | 0, _, _, res => res
  | _ + 1, [], _, res => res
  | fuel + 1, current :: rest, visited, res =>
    if visited.contains current then
      searchLoop g newFirst fuel rest visited res
    else
      searchLoop g newFirst fuel
        (if newFirst then (pushTargets g (current :: visited) current).reverse ++ rest
         else rest ++ pushTargets g (current :: visited) current)
        (current :: visited) (res.add_node current)

/-- Fuel bound for `searchLoop`: strictly larger than the loop measure
`|univ \ visited| * (edges + 1) + |work|` at the initial state. -/
def searchFuel (g : CallGraph) : Nat :=
  (g.edges.length + 1) * (g.edges.length + 1) + 2

/-- Rust `dfs_traversal`. -/
def dfs_traversal (g : CallGraph) (start : String) : TraversalResult :=
  searchLoop g true (searchFuel g) [start] [] TraversalResult.new

/-- Rust `bfs_traversal`. -/
def bfs_traversal (g : CallGraph) (start : String) : TraversalResult :=
  searchLoop g false (searchFuel g) [start] [] TraversalResult.new

/-- Rust `traversal_from_entries`: DFS from each entry, merged. -/
def traversal_from_entries (g : CallGraph) (entries : List String) : TraversalResult :=
  entries.foldl (fun res e => res.merge (dfs_traversal g e)) TraversalResult.new

/-- The entry loop of `CallGraphBuilder::build_from_entries`. -/
def entriesLoop (g : CallGraph) (res : TraversalResult) :
    List String → Except String TraversalResult
  | [] => .ok res
  | e :: rest =>
    if !containsKey g.nodes e then .error ("Entry point not found: " ++ e)
    else entriesLoop g (res.merge (dfs_traversal g e)) rest

/-- Rust `CallGraphBuilder::build_from_entries`. -/
def CallGraphBuilder.build_from_entries (b : CallGraphBuilder) (entries : List String) :
    Except String (CallGraph × TraversalResult) :=
  match b.build with
  | .error e => .error e
  | .ok g =>
    match entriesLoop g TraversalResult.new entries with
    | .error e => .error e
    | .ok r => .ok (g, r)

/-- Rust `reachable_from` (trackast-lib/src/query/mod.rs): error when the
id is unknown, otherwise the DFS reachable set. -/
def reachable_from (g : CallGraph) (id : String) : Except String (List String) :=
  if !containsKey g.nodes id then .error ("Function not found: " ++ id)
  else .ok (dfs_traversal g id).reachable

/-- Reachability along graph edges (reflexive-transitive closure of the
edge relation starting at `start`); both searches compute exactly this. -/
inductive Reach (g : CallGraph) (start : String) : String → Prop
  | refl : Reach g start start
  | step {x : String} {e : GraphEdge} :
      Reach g start x → e ∈ g.edges → e.fromId = x → Reach g start e.toId

/-- The universe of ids a search from `start` can ever enqueue: the start
node and all edge targets. -/
def searchUniv (g : CallGraph) (start : String) : List String :=
  start :: g.edges.map (fun e => e.toId)

/-- Number of not-yet-visited members of the search universe (counted with
multiplicity): the decreasing part of the loop measure. -/
def missingCount (g : CallGraph) (start : String) (visited : List String) : Nat :=
  ((searchUniv g start).filter (fun x => decide (¬ x ∈ visited))).length

/-- The results constructible through the public `TraversalResult` API:
`new`, any `add_node`, and any `merge` (with an arbitrary other result). -/
inductive BuiltResult : TraversalResult → Prop
  | new : BuiltResult TraversalResult.new
  | add {r : TraversalResult} (id : String) :
      BuiltResult r → BuiltResult (r.add_node id)
  | mrg {r : TraversalResult} (other : TraversalResult) :
      BuiltResult r → BuiltResult (r.merge other)

/-- The C10 invariant: no duplicates in the visit order, and the reachable
set holds exactly the ids of the visit order. -/
def ResultInv (r : TraversalResult) : Prop :=
  r.visited_order.Nodup ∧ ∀ x, x ∈ r.reachable ↔ x ∈ r.visited_order

/-- The C1 invariant: every edge endpoint is a key of the node map. -/
def NoDangling (g : CallGraph) : Prop :=
  ∀ e ∈ g.edges,
    containsKey g.nodes e.fromId = true ∧ containsKey g.nodes e.toId = true

/-- Combined invariant preserved by `build`: no dangling edges, every
external-flagged node has one of the two synthesized id shapes, and node
keys are unique. -/
def GoodGraph (g : CallGraph) : Prop :=
  NoDangling g ∧
  (∀ p ∈ g.nodes, p.2.is_external = true →
      (∃ n, p.1 = externalId n) ∨
      (∃ m n, p.1 = generate_id m n Signature.empty)) ∧
  (g.nodes.map Prod.fst).Nodup

/-- The graph `cb3.build` produces (used by witnesses). -/
def gC3 : CallGraph :=
  { nodes :=
      [("m::main::() -> ()", GraphNode.internal "m::main::() -> ()" mainDef3),
       ("foo::helper::() -> ()", GraphNode.ext "foo::helper::() -> ()" (externalDef "helper"))],
    edges := [{ fromId := "m::main::() -> ()", toId := "foo::helper::() -> ()", line := 1 }] }

/-! ## Theorems -/

/-- C5 (counterexample): building the `main`-calls-`println` example produces
an external node keyed `<external>::println::()`, and no node keyed
`generate_id "<external>" "println" Signature.empty = "<external>::println::() -> ()"`;
the claim that the synthesized id equals the `generate_id` form is false. -/
theorem C5_counterexample :
    Except.map
      (fun g => (containsKey g.nodes (generate_id "<external>" "println" Signature.empty),
                 containsKey g.nodes (externalId "println")))
      cb5.build = .ok (false, true) := by
  rfl

/-- C5 (amended): every external id the builder forms for a call with no
target module is the literal `<external>::<name>::()` (signature slot `()`),
which always differs from `generate_id "<external>" name Signature.empty`
(string form `<external>::<name>::() -> ()`); on the concrete example the
built graph's keys are exactly the internal `main` and that external id. -/
theorem C5_amended :
    (∀ name : String,
        externalId name = "<external>::" ++ name ++ "::" ++ "()" ∧
        externalId name ≠ generate_id "<external>" name Signature.empty) ∧
      Except.map (fun g => g.nodes.map Prod.fst) cb5.build =
        .ok ["m::main::() -> ()", "<external>::println::()"] := by
  refine ⟨fun name => ⟨rfl, ?_⟩, by rfl⟩
  intro h
  have h2 := congrArg String.length h
  simp only [externalId, generate_id, Signature.toString, Signature.empty,
    String.length_append] at h2
  have e1 : ("<external>::" : String).length = 12 := rfl
  have e2 : ("::" : String).length = 2 := rfl
  have e3 : ("()" : String).length = 2 := rfl
  have e4 : ("<external>" : String).length = 10 := rfl
  have e5 : ("(" : String).length = 1 := rfl
  have e6 : (") -> " : String).length = 5 := rfl
  have e7 : (String.intercalate ", " (List.map (fun p => p.1 ++ ": " ++ p.2)
      ([] : List (String × String)))).length = 0 := rfl
  omega

/-- C5 (witness for the amended theorem): instantiation at `println`. -/
theorem C5_amended_witness :
    externalId "println" ≠ generate_id "<external>" "println" Signature.empty :=
  (C5_amended.1 "println").2

/-- C3 (counterexample): the graph built from `cb3` contains a node with
`is_external = true` whose id `foo::helper::() -> ()` does not have module
component `<external>`, so the boolean form of claim C3 evaluates to false
on a successfully built graph. -/
theorem C3_counterexample :
    Except.map claimC3 cb3.build = .ok false ∧
      Except.map (fun g => g.nodes.map (fun p => (p.1, p.2.is_external))) cb3.build =
        .ok [("m::main::() -> ()", false), ("foo::helper::() -> ()", true)] := by
  exact ⟨rfl, rfl⟩

/-- C2 (counterexample): a builder already indexing `m::b::() -> ()`, given
an ast listing a fresh function `a` before the duplicate `b`, returns the
duplicate-id error yet its function map has gained `m::a::() -> ()` — the
call is not atomic. -/
theorem C2_counterexample :
    (b0c2.add_ast astAB2).1 = .error "Duplicate function ID: m::b::() -> ()" ∧
      mapContains (b0c2.add_ast astAB2).2.functions_map "m::a::() -> ()" = true ∧
      mapContains b0c2.functions_map "m::a::() -> ()" = false := by
  exact ⟨rfl, rfl, rfl⟩

lemma mapContains_append (m : List (String × FunctionDef)) (p : String × FunctionDef)
    (k : String) : mapContains (m ++ [p]) k = (mapContains m k || (p.1 == k)) := by
  simp [mapContains, List.any_append]

lemma addLoop_mono (fs : List FunctionDef) :
    ∀ m r m2, addLoop m fs = (r, m2) →
      ∀ k, mapContains m k = true → mapContains m2 k = true := by
  induction fs with
  | nil =>
    intro m r m2 h k hk
    simp only [addLoop] at h
    cases h
    exact hk
  | cons f fs ih =>
    intro m r m2 h k hk
    simp only [addLoop] at h
    by_cases hc : mapContains m f.fn_id
    · simp only [hc, if_pos] at h
      cases h
      exact hk
    · simp only [hc, if_neg, Bool.false_eq_true, not_false_eq_true] at h
      refine ih _ _ _ h k ?_
      rw [mapContains_append]
      simp [hk]

lemma addLoop_error_of_mem (fs : List FunctionDef) :
    ∀ m, (∃ f, f ∈ fs ∧ mapContains m f.fn_id = true) →
      ∃ e, (addLoop m fs).1 = .error e := by
  induction fs with
  | nil =>
    intro m h
    obtain ⟨f, hf, _⟩ := h
    exact absurd hf (List.not_mem_nil f)
  | cons f fs ih =>
    intro m h
    by_cases hc : mapContains m f.fn_id
    · exact ⟨"Duplicate function ID: " ++ f.fn_id, by simp [addLoop, hc]⟩
    · obtain ⟨f0, hf0, hk⟩ := h
      rcases List.mem_cons.mp hf0 with heq | hmem
      · subst heq
        exact absurd hk (by simp [hc])
      · have : ∃ e, (addLoop (m ++ [(f.fn_id, f)]) fs).1 = .error e := by
          refine ih _ ⟨f0, hmem, ?_⟩
          rw [mapContains_append]
          simp [hk]
        simpa [addLoop, hc] using this

lemma addLoop_ok_mem (fs : List FunctionDef) :
    ∀ m u m2, addLoop m fs = (.ok u, m2) →
      ∀ f ∈ fs, mapContains m2 f.fn_id = true := by
  induction fs with
  | nil =>
    intro m u m2 _ f hf
    exact absurd hf (List.not_mem_nil f)
  | cons f fs ih =>
    intro m u m2 h f0 hf0
    simp only [addLoop] at h
    by_cases hc : mapContains m f.fn_id
    · simp [hc] at h
    · simp only [hc, if_neg, Bool.false_eq_true, not_false_eq_true] at h
      rcases List.mem_cons.mp hf0 with heq | hmem
      · subst heq
        refine addLoop_mono fs _ _ _ h _ ?_
        rw [mapContains_append]
        simp
      · exact ih _ _ _ h f0 hmem

/-- C2 (amended): whenever the ast contains a function whose id is already
indexed, `add_ast` returns the duplicate-function-id error and leaves the
retained ast list unchanged; but the indexed function map is not rolled
back (functions preceding the first duplicate stay inserted). Adding the
same non-empty ast twice fails on the second call, and that second call
changes nothing because its very first function is already the duplicate. -/
theorem C2_amended :
    (∀ (b : CallGraphBuilder) (ast : AbstractAST),
        (∃ f, f ∈ ast.functions ∧ mapContains b.functions_map f.fn_id = true) →
        ∃ e, (b.add_ast ast).1 = .error e) ∧
    (∀ (b : CallGraphBuilder) (ast : AbstractAST) (e : String) (b2 : CallGraphBuilder),
        b.add_ast ast = (.error e, b2) → b2.asts = b.asts) ∧
    (∀ (b : CallGraphBuilder) (ast : AbstractAST) (b2 : CallGraphBuilder),
        ast.functions ≠ [] → b.add_ast ast = (.ok (), b2) →
        ∃ e, b2.add_ast ast = (.error e, b2)) := by
  refine ⟨?_, ?_, ?_⟩
  · intro b ast h
    obtain ⟨e, he⟩ := addLoop_error_of_mem ast.functions b.functions_map h
    refine ⟨e, ?_⟩
    unfold CallGraphBuilder.add_ast
    cases hl : addLoop b.functions_map ast.functions with
    | mk r m =>
      rw [hl] at he
      cases r with
      | ok u => simp at he
      | error e2 =>
        simp only at he
        rw [he]
  · intro b ast e b2 h
    unfold CallGraphBuilder.add_ast at h
    cases hl : addLoop b.functions_map ast.functions with
    | mk r m =>
      rw [hl] at h
      cases r with
      | ok u => simp at h
      | error e2 =>
        simp only [Prod.mk.injEq] at h
        rw [← h.2]
  · intro b ast b2 hne h
    unfold CallGraphBuilder.add_ast at h
    cases hl : addLoop b.functions_map ast.functions with
    | mk r m =>
      rw [hl] at h
      cases r with
      | error e2 => simp at h
      | ok u =>
        simp only [Prod.mk.injEq] at h
        obtain ⟨-, hb2⟩ := h
        subst hb2
        cases ast with
        | mk fns mp =>
          cases fns with
          | nil => exact absurd rfl hne
          | cons f fs =>
            have hmem : mapContains m f.fn_id = true :=
              addLoop_ok_mem (f :: fs) b.functions_map u m hl f (by simp)
            refine ⟨"Duplicate function ID: " ++ f.fn_id, ?_⟩
            unfold CallGraphBuilder.add_ast
            simp [addLoop, hmem]

/-- C2 (witness for the amended theorem): instantiations at the concrete
builder/ast fixtures. -/
theorem C2_amended_witness :
    (∃ e, (b0c2.add_ast astAB2).1 = .error e) ∧
      (∃ e, b0c2.add_ast astB2 = (.error e, b0c2)) :=
  ⟨C2_amended.1 b0c2 astAB2 ⟨bDef2, by simp [astAB2], by rfl⟩,
   C2_amended.2.2 CallGraphBuilder.new astB2 b0c2 (by simp [astB2]) (by rfl)⟩

/-- C9 (counterexample): for the path `utils/helpers.rs`, the Rust
translator derives module `helpers`, not `utils::helpers` as the claim
requires of every translator. -/
theorem C9_counterexample :
    rustDerivedModule ["utils", "helpers.rs"] = "helpers" ∧
      rustDerivedModule ["utils", "helpers.rs"] ≠ "utils::helpers" := by
  exact ⟨rfl, by decide⟩

/-- C9 (amended): the Python and JavaScript translators derive the file
stem prefixed by the parent components joined with `::` (whenever a parent
other than `.` exists), e.g. `utils/helpers.py → utils::helpers`; the Rust
translator's `translate_file` instead always uses the bare file stem. -/
theorem C9_amended :
    (∀ (dirs : List String) (file : String), dirs ≠ [] → dirs ≠ ["."] →
        extract_module_path (dirs ++ [file]) =
          .ok (String.intercalate "::" dirs ++ "::" ++ fileStem file)) ∧
    (∀ (dirs : List String) (file : String),
        rustDerivedModule (dirs ++ [file]) = fileStem file) ∧
    extract_module_path ["utils", "helpers.py"] = .ok "utils::helpers" := by
  refine ⟨?_, ?_, by rfl⟩
  · intro dirs file h1 h2
    have hg : (dirs ++ [file]).getLast? = some file := by simp
    have hd : (dirs ++ [file]).dropLast = dirs := by simp
    have e1 : dirs.isEmpty = false := by
      cases dirs with
      | nil => exact absurd rfl h1
      | cons d ds => rfl
    have e2 : (dirs == ["."]) = false := beq_eq_false_iff_ne.mpr h2
    simp [extract_module_path, hg, hd, e1, e2]
  · intro dirs file
    have hg : (dirs ++ [file]).getLast? = some file := by simp
    simp [rustDerivedModule, hg]

/-- C9 (witness for the amended theorem): instantiation at `utils/helpers.py`. -/
theorem C9_amended_witness :
    extract_module_path (["utils"] ++ ["helpers.py"]) =
      .ok (String.intercalate "::" ["utils"] ++ "::" ++ fileStem "helpers.py") :=
  C9_amended.1 ["utils"] "helpers.py" (by decide) (by decide)

lemma firstHit_append (cn : String) (fns : List FunctionDef) (l1 l2 : List String) :
    firstHit cn fns (l1 ++ l2) =
      match firstHit cn fns l1 with
      | some r => some r
      | none => firstHit cn fns l2 := by
  induction l1 with
  | nil => simp [firstHit]
  | cons m ms ih =>
    simp only [List.cons_append, firstHit]
    cases findMatch cn m fns with
    | some r => rfl
    | none => exact ih

lemma searchParents_eq_firstHit (cn : String) (parts : List String) (fns : List FunctionDef) :
    ∀ n, searchParents cn parts fns n =
      firstHit cn fns ((List.range n).reverse.map
        (fun i => String.intercalate "::" (parts.take (i + 1)))) := by
  intro n
  induction n with
  | zero => rfl
  | succ k ih =>
    rw [List.range_succ, List.reverse_append]
    simp only [List.reverse_singleton, List.singleton_append, List.map_cons]
    simp only [searchParents, firstHit]
    cases findMatch cn (String.intercalate "::" (parts.take (k + 1))) fns with
    | some r => rfl
    | none => exact ih

lemma firstHit_eq_none_iff (cn : String) (fns : List FunctionDef) (L : List String) :
    firstHit cn fns L = none ↔ ∀ m ∈ L, findMatch cn m fns = none := by
  induction L with
  | nil => simp [firstHit]
  | cons m ms ih =>
    simp only [firstHit]
    cases h : findMatch cn m fns with
    | some r => simp [h]
    | none => simp [h, ih]

lemma findMatch_eq_none_iff (cn mod : String) (fns : List FunctionDef) :
    findMatch cn mod fns = none ↔
      ∀ f ∈ fns, ¬(f.name = cn ∧ f.module = mod) := by
  unfold findMatch
  cases h : fns.find? (fun f => f.name == cn && f.module == mod) with
  | some f =>
    have hf := List.find?_some h
    have hmem := List.mem_of_find?_eq_some h
    simp only [Bool.and_eq_true, beq_iff_eq] at hf
    simp only [reduceCtorEq, false_iff, not_forall]
    exact ⟨f, hmem, by simp [hf]⟩
  | none =>
    rw [List.find?_eq_none] at h
    simp only [true_iff]
    intro f hf hcontra
    have := h f hf
    simp [hcontra.1, hcontra.2] at this

/-- C8: `resolve_call` equals the specification's first-match search over
the levels (current module, proper prefixes longest→shortest, root), and
returns `none` exactly when no level has a matching definition. -/
theorem C8_resolve_call_spec :
    ∀ (call_name current_module : String) (all_functions : List FunctionDef),
      resolve_call call_name current_module all_functions =
        firstHit call_name all_functions (searchLevels current_module) ∧
      (resolve_call call_name current_module all_functions = none ↔
        ∀ m ∈ searchLevels current_module, ∀ f ∈ all_functions,
          ¬(f.name = call_name ∧ f.module = m)) := by
  intro cn cm fns
  have hmain : resolve_call cn cm fns = firstHit cn fns (searchLevels cm) := by
    unfold resolve_call searchLevels
    simp only [List.cons_append, firstHit]
    cases findMatch cn cm fns with
    | some r => rfl
    | none =>
      simp only [List.append_eq]
      rw [firstHit_append, searchParents_eq_firstHit]
      cases firstHit cn fns ((List.range ((splitOnCC cm).length - 1)).reverse.map
          (fun i => String.intercalate "::" ((splitOnCC cm).take (i + 1)))) with
      | some r => rfl
      | none =>
        simp only [firstHit]
        cases findMatch cn "" fns with
        | some r => rfl
        | none => rfl
  refine ⟨hmain, ?_⟩
  rw [hmain, firstHit_eq_none_iff]
  constructor
  · intro h m hm f hf
    exact (findMatch_eq_none_iff cn m fns).mp (h m hm) f hf
  · intro h m hm
    exact (findMatch_eq_none_iff cn m fns).mpr (fun f hf => h m hm f hf)

/-- C8 (witness): instantiation at a concrete resolver input. -/
theorem C8_witness :
    resolve_call "helper" "root::utils" [FunctionDef.new "helper" Signature.empty "root"] =
      firstHit "helper" [FunctionDef.new "helper" Signature.empty "root"]
        (searchLevels "root::utils") :=
  (C8_resolve_call_spec "helper" "root::utils"
    [FunctionDef.new "helper" Signature.empty "root"]).1

/-- C4 (counterexample): on `{a,b,c}` with `a→b, b→c, c→a`, `find_cycles`
returns three cycles — one rotation per start node, because only the start
node is marked globally visited and deduplication removes only exactly
equal node sequences, not rotations — not the single canonical cycle the
claim asserts. -/
theorem C4_counterexample :
    (find_cycles g3).length = 3 ∧ (find_cycles g3).length ≠ 1 := by
  exact ⟨rfl, by decide⟩

/-- C4 (amended): `find_cycles` on that graph returns exactly the three
rotations `[a,b,c]`, `[b,c,a]`, `[c,a,b]` (sorted by node list; each of
length 3) and `has_cycles` is true; removing `c→a` empties the result and
makes `has_cycles` false. -/
theorem C4_amended :
    find_cycles g3 = [⟨["a", "b", "c"]⟩, ⟨["b", "c", "a"]⟩, ⟨["c", "a", "b"]⟩] ∧
      (∀ c ∈ find_cycles g3, c.len = 3) ∧
      has_cycles g3 = true ∧
      find_cycles g3b = [] ∧
      has_cycles g3b = false := by
  refine ⟨rfl, ?_, rfl, rfl, rfl⟩
  intro c hc
  have h : find_cycles g3 = [⟨["a", "b", "c"]⟩, ⟨["b", "c", "a"]⟩, ⟨["c", "a", "b"]⟩] := rfl
  rw [h] at hc
  simp only [List.mem_cons, List.not_mem_nil, or_false] at hc
  rcases hc with rfl | rfl | rfl <;> rfl

lemma contains_mem (l : List String) (a : String) : l.contains a = true ↔ a ∈ l := by
  simp

lemma length_filter_le_of_imp (l : List String) (p q : String → Bool)
    (h : ∀ x, p x = true → q x = true) :
    (l.filter p).length ≤ (l.filter q).length := by
  induction l with
  | nil => simp
  | cons u us ih =>
    simp only [List.filter_cons]
    by_cases hp : p u = true
    · rw [if_pos hp, if_pos (h u hp)]
      simpa using ih
    · rw [if_neg hp]
      by_cases hq : q u = true
      · rw [if_pos hq]
        exact Nat.le_succ_of_le ih
      · rw [if_neg hq]
        exact ih

lemma missing_decrease (univ visited : List String) (current : String)
    (hmem : current ∈ univ) (hnv : current ∉ visited) :
    (univ.filter (fun x => decide (¬ x ∈ current :: visited))).length <
      (univ.filter (fun x => decide (¬ x ∈ visited))).length := by
  have himp : ∀ x : String, (decide (¬ x ∈ current :: visited)) = true →
      (decide (¬ x ∈ visited)) = true := by
    intro x hx
    simp only [decide_eq_true_eq, List.mem_cons, not_or] at hx ⊢
    exact hx.2
  induction univ with
  | nil => exact absurd hmem (List.not_mem_nil current)
  | cons u us ih =>
    simp only [List.filter_cons]
    by_cases hu : u = current
    · subst hu
      have hp : (decide (¬ u ∈ u :: visited)) = false := by simp
      have hq : (decide (¬ u ∈ visited)) = true := by simpa using hnv
      rw [if_neg (by simp [hp]), if_pos hq]
      simp only [List.length_cons]
      exact Nat.lt_succ_of_le (length_filter_le_of_imp us _ _ himp)
    · have hmem2 : current ∈ us := by
        rcases List.mem_cons.mp hmem with h | h
        · exact absurd h.symm hu
        · exact h
      have heq : (decide (¬ u ∈ current :: visited)) = (decide (¬ u ∈ visited)) := by
        simp only [List.mem_cons, not_or, decide_eq_decide]
        constructor
        · intro h
          exact h.2
        · intro h
          exact ⟨fun hcontra => hu hcontra, h⟩
      by_cases hq : (decide (¬ u ∈ visited)) = true
      · rw [if_pos (heq ▸ hq), if_pos hq]
        simpa using ih hmem2
      · rw [if_neg (by rw [heq]; exact hq), if_neg hq]
        exact ih hmem2

lemma mem_pushTargets (g : CallGraph) (v2 : List String) (current x : String) :
    x ∈ pushTargets g v2 current ↔
      (∃ e ∈ g.edges, e.fromId = current ∧ e.toId = x) ∧ x ∉ v2 := by
  unfold pushTargets CallGraph.get_edges_from
  simp only [List.mem_filter, List.mem_map, List.mem_filter, beq_iff_eq,
    Bool.not_eq_eq_eq_not, Bool.not_true]
  constructor
  · rintro ⟨⟨e, ⟨he, hf⟩, rfl⟩, h2⟩
    refine ⟨⟨e, he, hf, rfl⟩, ?_⟩
    intro hmem
    rw [(Bool.not_eq_true _).symm] at h2
    exact h2 (List.elem_iff.mpr hmem)
  · rintro ⟨⟨e, he, hf, rfl⟩, h2⟩
    refine ⟨⟨e, ⟨he, hf⟩, rfl⟩, ?_⟩
    rw [(Bool.not_eq_true _).symm]
    intro hcontra
    exact h2 (List.elem_iff.mp hcontra)

lemma pushTargets_length_le (g : CallGraph) (v2 : List String) (current : String) :
    (pushTargets g v2 current).length ≤ g.edges.length := by
  unfold pushTargets CallGraph.get_edges_from
  calc (((g.edges.filter (fun e => e.fromId == current)).map
          (fun e => e.toId)).filter (fun t => !v2.contains t)).length
      ≤ ((g.edges.filter (fun e => e.fromId == current)).map
          (fun e => e.toId)).length := List.length_filter_le _ _
    _ = (g.edges.filter (fun e => e.fromId == current)).length := List.length_map _ _
    _ ≤ g.edges.length := List.length_filter_le _ _

lemma add_node_of_not_mem {r : TraversalResult} {id : String} (h : id ∉ r.reachable) :
    r.add_node id =
      { reachable := id :: r.reachable, visited_order := r.visited_order ++ [id] } := by
  unfold TraversalResult.add_node
  rw [if_neg]
  intro hcontra
  exact h (List.elem_iff.mp hcontra)

/-- The central worklist invariant: provided the fuel dominates the loop
measure and the state invariants hold, the worklist loop (in either stack
or queue mode) computes exactly the `Reach`-closure of `start`. -/
lemma searchLoop_reachable (g : CallGraph) (nf : Bool) (start : String) :
    ∀ (fuel : Nat) (work visited : List String) (res : TraversalResult),
      missingCount g start visited * (g.edges.length + 1) + work.length < fuel →
      (∀ x ∈ work, x ∈ searchUniv g start) →
      (∀ x, x ∈ res.reachable ↔ x ∈ visited) →
      (∀ x ∈ visited, Reach g start x) →
      (∀ x ∈ work, Reach g start x) →
      (∀ x ∈ visited, ∀ e ∈ g.edges, e.fromId = x → e.toId ∈ visited ∨ e.toId ∈ work) →
      (start ∈ visited ∨ start ∈ work) →
      ∀ y, (y ∈ (searchLoop g nf fuel work visited res).reachable ↔ Reach g start y) := by
  intro fuel
  induction fuel with
  | zero =>
    intro work visited res hM
    exact absurd hM (Nat.not_lt_zero _)
  | succ fuel ih =>
    intro work visited res hM hwu hres hvis hwork hclosed hstart y
    cases work with
    | nil =>
      simp only [searchLoop]
      have hstart2 : start ∈ visited := by
        rcases hstart with h | h
        · exact h
        · exact absurd h (List.not_mem_nil start)
      have hcl : ∀ z, Reach g start z → z ∈ visited := by
        intro z hz
        induction hz with
        | refl => exact hstart2
        | step hr he hf ihz =>
          rcases hclosed _ ihz _ he hf with h | h
          · exact h
          · exact absurd h (List.not_mem_nil _)
      constructor
      · intro hy
        exact hvis y ((hres y).mp hy)
      · intro hy
        exact (hres y).mpr (hcl y hy)
    | cons current rest =>
      by_cases hc : visited.contains current = true
      · have hcm : current ∈ visited := List.elem_iff.mp hc
        have hstep : searchLoop g nf (fuel + 1) (current :: rest) visited res =
            searchLoop g nf fuel rest visited res := by
          simp only [searchLoop]
          rw [if_pos hc]
        rw [hstep]
        refine ih rest visited res ?_ ?_ hres hvis ?_ ?_ ?_ y
        · simp only [List.length_cons] at hM
          omega
        · intro x hx
          exact hwu x (List.mem_cons_of_mem _ hx)
        · intro x hx
          exact hwork x (List.mem_cons_of_mem _ hx)
        · intro x hx e he hf
          rcases hclosed x hx e he hf with h | h
          · exact Or.inl h
          · rcases List.mem_cons.mp h with h2 | h2
            · exact Or.inl (h2 ▸ hcm)
            · exact Or.inr h2
        · rcases hstart with h | h
          · exact Or.inl h
          · rcases List.mem_cons.mp h with h2 | h2
            · exact Or.inl (h2 ▸ hcm)
            · exact Or.inr h2
      · have hcm : current ∉ visited := fun h => hc (List.elem_iff.mpr h)
        have hcu : current ∈ searchUniv g start := hwu current (List.mem_cons_self _ _)
        have hcreach : Reach g start current := hwork current (List.mem_cons_self _ _)
        have hstep : searchLoop g nf (fuel + 1) (current :: rest) visited res =
            searchLoop g nf fuel
              (if nf then (pushTargets g (current :: visited) current).reverse ++ rest
               else rest ++ pushTargets g (current :: visited) current)
              (current :: visited) (res.add_node current) := by
          simp only [searchLoop]
          rw [if_neg hc]
        rw [hstep]
        have hmemw2 : ∀ x,
            (x ∈ (if nf then (pushTargets g (current :: visited) current).reverse ++ rest
                  else rest ++ pushTargets g (current :: visited) current)) ↔
              x ∈ pushTargets g (current :: visited) current ∨ x ∈ rest := by
          intro x
          cases nf <;> simp [or_comm]
        have hlenw2 :
            (if nf then (pushTargets g (current :: visited) current).reverse ++ rest
             else rest ++ pushTargets g (current :: visited) current).length =
              rest.length + (pushTargets g (current :: visited) current).length := by
          cases nf <;> simp [Nat.add_comm]
        have hnm : current ∉ res.reachable := fun h => hcm ((hres current).mp h)
        have hradd := add_node_of_not_mem hnm
        refine ih _ (current :: visited) (res.add_node current) ?_ ?_ ?_ ?_ ?_ ?_ ?_ y
        · -- measure decrease
          have hdec : missingCount g start (current :: visited) + 1 ≤
              missingCount g start visited :=
            missing_decrease _ visited current hcu hcm
          have hmul : (missingCount g start (current :: visited) + 1) * (g.edges.length + 1) ≤
              missingCount g start visited * (g.edges.length + 1) :=
            Nat.mul_le_mul_right _ hdec
          rw [Nat.add_mul, Nat.one_mul] at hmul
          have hpl : (pushTargets g (current :: visited) current).length ≤ g.edges.length :=
            pushTargets_length_le g _ current
          rw [hlenw2]
          simp only [List.length_cons] at hM
          omega
        · intro x hx
          rcases (hmemw2 x).mp hx with h | h
          · obtain ⟨⟨e, he, hf, ht⟩, -⟩ := (mem_pushTargets g _ current x).mp h
            exact List.mem_cons_of_mem _ (ht ▸ List.mem_map_of_mem _ he)
          · exact hwu x (List.mem_cons_of_mem _ h)
        · intro x
          rw [hradd]
          simp only [List.mem_cons]
          constructor
          · rintro (rfl | h)
            · exact Or.inl rfl
            · exact Or.inr ((hres x).mp h)
          · rintro (rfl | h)
            · exact Or.inl rfl
            · exact Or.inr ((hres x).mpr h)
        · intro x hx
          rcases List.mem_cons.mp hx with rfl | h
          · exact hcreach
          · exact hvis x h
        · intro x hx
          rcases (hmemw2 x).mp hx with h | h
          · obtain ⟨⟨e, he, hf, ht⟩, -⟩ := (mem_pushTargets g _ current x).mp h
            exact ht ▸ Reach.step hcreach he hf
          · exact hwork x (List.mem_cons_of_mem _ h)
        · intro x hx e he hf
          rcases List.mem_cons.mp hx with rfl | h
          · by_cases hv : e.toId ∈ x :: visited
            · exact Or.inl hv
            · refine Or.inr ((hmemw2 e.toId).mpr (Or.inl ?_))
              exact (mem_pushTargets g _ x e.toId).mpr ⟨⟨e, he, hf, rfl⟩, hv⟩
          · rcases hclosed x h e he hf with h2 | h2
            · exact Or.inl (List.mem_cons_of_mem _ h2)
            · rcases List.mem_cons.mp h2 with h3 | h3
              · exact Or.inl (h3 ▸ List.mem_cons_self _ _)
              · exact Or.inr ((hmemw2 e.toId).mpr (Or.inr h3))
        · rcases hstart with h | h
          · exact Or.inl (List.mem_cons_of_mem _ h)
          · rcases List.mem_cons.mp h with h2 | h2
            · exact Or.inl (h2 ▸ List.mem_cons_self _ _)
            · exact Or.inr ((hmemw2 start).mpr (Or.inr h2))

lemma missingCount_nil (g : CallGraph) (start : String) :
    missingCount g start [] = g.edges.length + 1 := by
  unfold missingCount searchUniv
  have : ∀ l : List String, (l.filter (fun x => decide (¬ x ∈ ([] : List String)))) = l := by
    intro l
    apply List.filter_eq_self.mpr
    intro a _
    simp
  rw [this]
  simp

lemma searchWrap_reach (g : CallGraph) (start : String) (nf : Bool) :
    ∀ y, y ∈ (searchLoop g nf (searchFuel g) [start] [] TraversalResult.new).reachable ↔
      Reach g start y := by
  apply searchLoop_reachable
  · rw [missingCount_nil]
    unfold searchFuel
    simp only [List.length_singleton]
    omega
  · intro x hx
    rw [List.mem_singleton] at hx
    subst hx
    exact List.mem_cons_self _ _
  · intro x
    simp [TraversalResult.new]
  · intro x hx
    exact absurd hx (List.not_mem_nil x)
  · intro x hx
    rw [List.mem_singleton] at hx
    subst hx
    exact Reach.refl
  · intro x hx
    exact absurd hx (List.not_mem_nil x)
  · exact Or.inr (List.mem_singleton_self start)

lemma dfs_reach_iff (g : CallGraph) (start y : String) :
    y ∈ (dfs_traversal g start).reachable ↔ Reach g start y :=
  searchWrap_reach g start true y

lemma bfs_reach_iff (g : CallGraph) (start y : String) :
    y ∈ (bfs_traversal g start).reachable ↔ Reach g start y :=
  searchWrap_reach g start false y

/-- C6: for every call graph and every start id, depth-first and
breadth-first traversal reach exactly the same set of ids (both compute
the `Reach`-closure of the start; only the visit order differs). -/
theorem C6_dfs_bfs_same_reachable :
    ∀ (g : CallGraph) (start y : String),
      y ∈ (dfs_traversal g start).reachable ↔ y ∈ (bfs_traversal g start).reachable := by
  intro g start y
  rw [dfs_reach_iff, bfs_reach_iff]

/-- C7: `reachable_from` returns an error exactly when the id is not a key
of the node map, and any successfully returned set contains the id itself. -/
theorem C7_reachable_from_spec :
    ∀ (g : CallGraph) (id : String),
      ((∃ msg, reachable_from g id = .error msg) ↔ containsKey g.nodes id = false) ∧
      (∀ s, reachable_from g id = .ok s → id ∈ s) := by
  intro g id
  unfold reachable_from
  by_cases h : containsKey g.nodes id
  · rw [if_neg (by simp [h])]
    constructor
    · simp [h]
    · intro s hs
      have hseq : s = (dfs_traversal g id).reachable := by
        injection hs with h2
        exact h2.symm
      rw [hseq]
      exact (dfs_reach_iff g id id).mpr Reach.refl
  · have hb : containsKey g.nodes id = false := by simpa using h
    rw [if_pos (by simp [hb])]
    constructor
    · simp [hb]
    · intro s hs
      cases hs

/-- C7 (witness): on the concrete graph `g3`, the set reachable from `a`
contains `a`. -/
theorem C7_witness : "a" ∈ (dfs_traversal g3 "a").reachable :=
  (C7_reachable_from_spec g3 "a").2 (dfs_traversal g3 "a").reachable rfl

lemma resultInv_new : ResultInv TraversalResult.new := by
  constructor
  · exact List.nodup_nil
  · intro x
    simp [TraversalResult.new]

lemma resultInv_add_node {r : TraversalResult} (h : ResultInv r) (id : String) :
    ResultInv (r.add_node id) := by
  by_cases hmem : id ∈ r.reachable
  · have : r.add_node id = r := by
      unfold TraversalResult.add_node
      rw [if_pos (List.elem_iff.mpr hmem)]
    rw [this]
    exact h
  · rw [add_node_of_not_mem hmem]
    obtain ⟨hnd, hiff⟩ := h
    constructor
    · simp only [List.nodup_append, List.nodup_singleton, List.disjoint_singleton]
      exact ⟨hnd, trivial, fun hcontra => hmem ((hiff id).mpr hcontra)⟩
    · intro x
      simp only [List.mem_cons, List.mem_append, List.mem_singleton,
        List.not_mem_nil, or_false]
      constructor
      · rintro (rfl | hx)
        · exact Or.inr rfl
        · exact Or.inl ((hiff x).mp hx)
      · rintro (hx | rfl)
        · exact Or.inr ((hiff x).mpr hx)
        · exact Or.inl rfl

lemma resultInv_foldl_add {l : List String} :
    ∀ {r : TraversalResult}, ResultInv r → ResultInv (l.foldl TraversalResult.add_node r) := by
  induction l with
  | nil => intro r h; exact h
  | cons x xs ih =>
    intro r h
    exact ih (resultInv_add_node h x)

lemma resultInv_merge {r : TraversalResult} (h : ResultInv r) (other : TraversalResult) :
    ResultInv (r.merge other) :=
  resultInv_foldl_add h

lemma builtResult_inv : ∀ r, BuiltResult r → ResultInv r := by
  intro r h
  induction h with
  | new => exact resultInv_new
  | add id _ ih => exact resultInv_add_node ih id
  | mrg other _ ih => exact resultInv_merge ih other

lemma merge_self_eq {r : TraversalResult} (h : ResultInv r) : r.merge r = r := by
  unfold TraversalResult.merge
  have : ∀ (l : List String) (s : TraversalResult),
      (∀ x ∈ l, x ∈ s.reachable) → l.foldl TraversalResult.add_node s = s := by
    intro l
    induction l with
    | nil => intro s _; rfl
    | cons x xs ih =>
      intro s hs
      have hx : x ∈ s.reachable := hs x (List.mem_cons_self _ _)
      have hid : s.add_node x = s := by
        unfold TraversalResult.add_node
        rw [if_pos (List.elem_iff.mpr hx)]
      simp only [List.foldl_cons, hid]
      exact ih s (fun z hz => hs z (List.mem_cons_of_mem _ hz))
  exact this r.visited_order r (fun x hx => (h.2 x).mpr hx)

lemma builtResult_searchLoop (g : CallGraph) (nf : Bool) :
    ∀ (fuel : Nat) (work visited : List String) (res : TraversalResult),
      BuiltResult res → BuiltResult (searchLoop g nf fuel work visited res) := by
  intro fuel
  induction fuel with
  | zero =>
    intro work visited res h
    simpa [searchLoop] using h
  | succ fuel ih =>
    intro work visited res h
    cases work with
    | nil => simpa [searchLoop] using h
    | cons current rest =>
      by_cases hc : visited.contains current = true
      · have hstep : searchLoop g nf (fuel + 1) (current :: rest) visited res =
            searchLoop g nf fuel rest visited res := by
          simp only [searchLoop]
          rw [if_pos hc]
        rw [hstep]
        exact ih rest visited res h
      · have hstep : searchLoop g nf (fuel + 1) (current :: rest) visited res =
            searchLoop g nf fuel
              (if nf then (pushTargets g (current :: visited) current).reverse ++ rest
               else rest ++ pushTargets g (current :: visited) current)
              (current :: visited) (res.add_node current) := by
          simp only [searchLoop]
          rw [if_neg hc]
        rw [hstep]
        exact ih _ _ _ (BuiltResult.add current h)

lemma builtResult_dfs (g : CallGraph) (start : String) :
    BuiltResult (dfs_traversal g start) :=
  builtResult_searchLoop g true _ _ _ _ BuiltResult.new

lemma builtResult_bfs (g : CallGraph) (start : String) :
    BuiltResult (bfs_traversal g start) :=
  builtResult_searchLoop g false _ _ _ _ BuiltResult.new

lemma builtResult_from_entries (g : CallGraph) (entries : List String) :
    BuiltResult (traversal_from_entries g entries) := by
  unfold traversal_from_entries
  have : ∀ (l : List String) (r : TraversalResult), BuiltResult r →
      BuiltResult (l.foldl (fun res e => res.merge (dfs_traversal g e)) r) := by
    intro l
    induction l with
    | nil => intro r h; exact h
    | cons e es ih =>
      intro r h
      exact ih _ (BuiltResult.mrg _ h)
  exact this entries TraversalResult.new BuiltResult.new

/-- C10: every result built through `new`/`add_node`/`merge` — which
includes the results of `dfs_traversal`, `bfs_traversal` and
`traversal_from_entries` — has a duplicate-free visit order whose id set
equals the reachable set; consequently merging such a result into itself
changes nothing. -/
theorem C10_traversal_result_invariant :
    (∀ r : TraversalResult, BuiltResult r →
        r.visited_order.Nodup ∧
        (∀ x, x ∈ r.reachable ↔ x ∈ r.visited_order) ∧
        r.merge r = r) ∧
    (∀ (g : CallGraph) (start : String),
        BuiltResult (dfs_traversal g start) ∧ BuiltResult (bfs_traversal g start)) ∧
    (∀ (g : CallGraph) (entries : List String),
        BuiltResult (traversal_from_entries g entries)) := by
  refine ⟨?_, ?_, ?_⟩
  · intro r h
    have hinv := builtResult_inv r h
    exact ⟨hinv.1, hinv.2, merge_self_eq hinv⟩
  · intro g start
    exact ⟨builtResult_dfs g start, builtResult_bfs g start⟩
  · intro g entries
    exact builtResult_from_entries g entries

/-- C10 (witness): the DFS result on the concrete graph `g3` merged into
itself is unchanged. -/
theorem C10_witness :
    (dfs_traversal g3 "a").merge (dfs_traversal g3 "a") = dfs_traversal g3 "a" :=
  (C10_traversal_result_invariant.1 (dfs_traversal g3 "a")
    (C10_traversal_result_invariant.2.1 g3 "a").1).2.2

lemma containsKey_append (l : List (String × GraphNode)) (p : String × GraphNode)
    (k : String) : containsKey (l ++ [p]) k = (containsKey l k || (p.1 == k)) := by
  simp [containsKey, List.any_append]

lemma containsKey_mono {l : List (String × GraphNode)} {k : String}
    (p : String × GraphNode) (h : containsKey l k = true) :
    containsKey (l ++ [p]) k = true := by
  rw [containsKey_append, h]
  rfl

lemma not_mem_keys_of_containsKey_false {l : List (String × GraphNode)} {k : String}
    (h : containsKey l k = false) : k ∉ l.map Prod.fst := by
  intro hmem
  obtain ⟨p, hp, hpk⟩ := List.mem_map.mp hmem
  have : l.any (fun q => q.1 == k) = true := by
    simp only [List.any_eq_true]
    exact ⟨p, hp, by simp [hpk]⟩
  rw [containsKey] at h
  rw [h] at this
  cases this

lemma insert_node_ok {g : CallGraph} {node : GraphNode} {g2 : CallGraph}
    (h : g.insert_node node = .ok g2) :
    g2.nodes = g.nodes ++ [(node.id, node)] ∧ g2.edges = g.edges ∧
      containsKey g.nodes node.id = false := by
  unfold CallGraph.insert_node at h
  by_cases hc : containsKey g.nodes node.id = true
  · rw [if_pos hc] at h
    cases h
  · rw [if_neg hc] at h
    injection h with h2
    rw [← h2]
    exact ⟨rfl, rfl, by simpa using hc⟩

lemma insert_edge_ok {g : CallGraph} {edge : GraphEdge} {g2 : CallGraph}
    (h : g.insert_edge edge = .ok g2) :
    g2.nodes = g.nodes ∧ g2.edges = g.edges ++ [edge] ∧
      containsKey g.nodes edge.fromId = true ∧ containsKey g.nodes edge.toId = true := by
  unfold CallGraph.insert_edge at h
  by_cases h1 : containsKey g.nodes edge.fromId = true
  · rw [if_neg (by simp [h1])] at h
    by_cases h2 : containsKey g.nodes edge.toId = true
    · rw [if_neg (by simp [h2])] at h
      injection h with h3
      rw [← h3]
      exact ⟨rfl, rfl, h1, h2⟩
    · rw [if_pos (by simpa using h2)] at h
      cases h
  · rw [if_pos (by simpa using h1)] at h
    cases h

lemma good_insert_node {g : CallGraph} {node : GraphNode} {g2 : CallGraph}
    (hg : GoodGraph g) (h : g.insert_node node = .ok g2)
    (hshape : node.is_external = true →
      (∃ n, node.id = externalId n) ∨
      (∃ m n, node.id = generate_id m n Signature.empty)) :
    GoodGraph g2 := by
  obtain ⟨hn, he, hk⟩ := insert_node_ok h
  refine ⟨?_, ?_, ?_⟩
  · intro e hmem
    rw [he] at hmem
    obtain ⟨h1, h2⟩ := hg.1 e hmem
    rw [hn]
    exact ⟨containsKey_mono _ h1, containsKey_mono _ h2⟩
  · intro p hp hext
    rw [hn] at hp
    rcases List.mem_append.mp hp with hold | hnew
    · exact hg.2.1 p hold hext
    · rw [List.mem_singleton] at hnew
      subst hnew
      exact hshape hext
  · rw [hn, List.map_append]
    simp only [List.map_cons, List.map_nil]
    rw [List.nodup_append]
    refine ⟨hg.2.2, List.nodup_singleton _, ?_⟩
    intro a ha hb
    rw [List.mem_singleton] at hb
    subst hb
    exact not_mem_keys_of_containsKey_false hk ha

lemma good_insert_edge {g : CallGraph} {edge : GraphEdge} {g2 : CallGraph}
    (hg : GoodGraph g) (h : g.insert_edge edge = .ok g2) : GoodGraph g2 := by
  obtain ⟨hn, he, h1, h2⟩ := insert_edge_ok h
  refine ⟨?_, ?_, ?_⟩
  · intro e hmem
    rw [he] at hmem
    rcases List.mem_append.mp hmem with hold | hnew
    · obtain ⟨ha, hb⟩ := hg.1 e hold
      rw [hn]
      exact ⟨ha, hb⟩
    · rw [List.mem_singleton] at hnew
      subst hnew
      rw [hn]
      exact ⟨h1, h2⟩
  · intro p hp hext
    rw [hn] at hp
    exact hg.2.1 p hp hext
  · rw [hn]
    exact hg.2.2

lemma good_ensureExternalForNone {g : CallGraph} {call : FunctionCall} {g1 : CallGraph}
    (hg : GoodGraph g) (h : ensureExternalForNone g call = .ok g1) : GoodGraph g1 := by
  unfold ensureExternalForNone at h
  cases hcall : call.target_module with
  | some tm =>
    rw [hcall] at h
    injection h with h2
    rw [← h2]
    exact hg
  | none =>
    rw [hcall] at h
    by_cases hc : containsKey g.nodes (externalId call.target_name) = true
    · rw [if_pos hc] at h
      injection h with h2
      rw [← h2]
      exact hg
    · rw [if_neg hc] at h
      exact good_insert_node hg h (fun _ => Or.inl ⟨call.target_name, rfl⟩)

lemma good_ensureTargetNode {g1 : CallGraph} {call : FunctionCall} {g2 : CallGraph}
    (hg : GoodGraph g1) (h : ensureTargetNode g1 (callTargetId call) call = .ok g2) :
    GoodGraph g2 := by
  unfold ensureTargetNode at h
  by_cases hc : (!containsKey g1.nodes (callTargetId call) &&
      !(strBeginsWith (callTargetId call) "<external>")) = true
  · rw [if_pos hc] at h
    refine good_insert_node hg h (fun _ => ?_)
    unfold callTargetId
    cases hcall : call.target_module with
    | some tm => exact Or.inr ⟨tm, call.target_name, rfl⟩
    | none => exact Or.inl ⟨call.target_name, rfl⟩
  · rw [if_neg hc] at h
    injection h with h2
    rw [← h2]
    exact hg

lemma good_processOneCall {g : CallGraph} {from_id : String} {call : FunctionCall}
    {g2 : CallGraph} (hg : GoodGraph g) (h : processOneCall g from_id call = .ok g2) :
    GoodGraph g2 := by
  unfold processOneCall at h
  cases h1 : ensureExternalForNone g call with
  | error e =>
    rw [h1] at h
    cases h
  | ok ga =>
    rw [h1] at h
    dsimp only at h
    cases h2 : ensureTargetNode ga (callTargetId call) call with
    | error e =>
      rw [h2] at h
      cases h
    | ok gb =>
      rw [h2] at h
      exact good_insert_edge (good_ensureTargetNode (good_ensureExternalForNone hg h1) h2) h

lemma good_processCalls {from_id : String} :
    ∀ (calls : List FunctionCall) (g g2 : CallGraph), GoodGraph g →
      processCalls g from_id calls = .ok g2 → GoodGraph g2 := by
  intro calls
  induction calls with
  | nil =>
    intro g g2 hg h
    injection h with h2
    rw [← h2]
    exact hg
  | cons call rest ih =>
    intro g g2 hg h
    unfold processCalls at h
    cases h1 : processOneCall g from_id call with
    | error e =>
      rw [h1] at h
      cases h
    | ok ga =>
      rw [h1] at h
      exact ih ga g2 (good_processOneCall hg h1) h

lemma good_processFunctions :
    ∀ (fns : List (String × FunctionDef)) (g g2 : CallGraph), GoodGraph g →
      processFunctions g fns = .ok g2 → GoodGraph g2 := by
  intro fns
  induction fns with
  | nil =>
    intro g g2 hg h
    injection h with h2
    rw [← h2]
    exact hg
  | cons p rest ih =>
    intro g g2 hg h
    unfold processFunctions at h
    cases h1 : processCalls g p.2.fn_id p.2.calls with
    | error e =>
      obtain ⟨pk, pf⟩ := p
      rw [h1] at h
      cases h
    | ok ga =>
      obtain ⟨pk, pf⟩ := p
      rw [h1] at h
      exact ih ga g2 (good_processCalls _ g ga hg h1) h

lemma good_insertInternalNodes :
    ∀ (fns : List (String × FunctionDef)) (g g2 : CallGraph), GoodGraph g →
      insertInternalNodes g fns = .ok g2 → GoodGraph g2 := by
  intro fns
  induction fns with
  | nil =>
    intro g g2 hg h
    injection h with h2
    rw [← h2]
    exact hg
  | cons p rest ih =>
    intro g g2 hg h
    unfold insertInternalNodes at h
    obtain ⟨pk, pf⟩ := p
    cases h1 : g.insert_node (GraphNode.internal pk pf) with
    | error e =>
      rw [h1] at h
      cases h
    | ok ga =>
      rw [h1] at h
      have hga : GoodGraph ga :=
        good_insert_node hg h1 (fun hcontra => by cases hcontra)
      exact ih ga g2 hga h

lemma good_new : GoodGraph CallGraph.new := by
  refine ⟨?_, ?_, ?_⟩
  · intro e he
    exact absurd he (List.not_mem_nil e)
  · intro p hp
    exact absurd hp (List.not_mem_nil p)
  · exact List.nodup_nil

lemma good_build {b : CallGraphBuilder} {g : CallGraph} (h : b.build = .ok g) :
    GoodGraph g := by
  unfold CallGraphBuilder.build at h
  cases h1 : insertInternalNodes CallGraph.new b.functions_map with
  | error e =>
    rw [h1] at h
    cases h
  | ok ga =>
    rw [h1] at h
    exact good_processFunctions _ ga g
      (good_insertInternalNodes _ CallGraph.new ga good_new h1) h

/-- C1: graphs returned by `build` have no dangling edges; `insert_edge`
errors whenever either endpoint is absent; and both insertion primitives
preserve the no-dangling invariant, so any graph assembled only through
them from `CallGraph.new` satisfies it as well. -/
theorem C1_no_dangling_edges :
    (∀ (b : CallGraphBuilder) (g : CallGraph), b.build = .ok g → NoDangling g) ∧
    (∀ (g : CallGraph) (e : GraphEdge),
        containsKey g.nodes e.fromId = false ∨ containsKey g.nodes e.toId = false →
        ∃ msg, g.insert_edge e = .error msg) ∧
    (∀ (g : CallGraph) (n : GraphNode) (g2 : CallGraph),
        NoDangling g → g.insert_node n = .ok g2 → NoDangling g2) ∧
    (∀ (g : CallGraph) (e : GraphEdge) (g2 : CallGraph),
        NoDangling g → g.insert_edge e = .ok g2 → NoDangling g2) ∧
    NoDangling CallGraph.new := by
  refine ⟨?_, ?_, ?_, ?_, ?_⟩
  · intro b g h
    exact (good_build h).1
  · intro g e h
    unfold CallGraph.insert_edge
    rcases h with h | h
    · rw [if_pos (by simp [h])]
      exact ⟨_, rfl⟩
    · by_cases h1 : containsKey g.nodes e.fromId = true
      · rw [if_neg (by simp [h1]), if_pos (by simp [h])]
        exact ⟨_, rfl⟩
      · rw [if_pos (by simpa using h1)]
        exact ⟨_, rfl⟩
  · intro g n g2 hg h
    obtain ⟨hn, he, -⟩ := insert_node_ok h
    intro e hmem
    rw [he] at hmem
    obtain ⟨h1, h2⟩ := hg e hmem
    rw [hn]
    exact ⟨containsKey_mono _ h1, containsKey_mono _ h2⟩
  · intro g e g2 hg h
    obtain ⟨hn, he, h1, h2⟩ := insert_edge_ok h
    intro e2 hmem
    rw [he] at hmem
    rcases List.mem_append.mp hmem with hold | hnew
    · obtain ⟨ha, hb⟩ := hg e2 hold
      rw [hn]
      exact ⟨ha, hb⟩
    · rw [List.mem_singleton] at hnew
      subst hnew
      rw [hn]
      exact ⟨h1, h2⟩
  · intro e he
    exact absurd he (List.not_mem_nil e)

/-- C1 (witness): inserting an edge into the empty graph fails. -/
theorem C1_witness :
    ∃ msg, CallGraph.new.insert_edge { fromId := "a", toId := "b", line := 1 } = .error msg :=
  C1_no_dangling_edges.2.1 CallGraph.new { fromId := "a", toId := "b", line := 1 }
    (Or.inl rfl)

/-- C3 (amended): in every graph returned by `build`, each node with
`is_external = true` has an id that is either `<external>::<name>::()`
(no-module call) or `generate_id m n Signature.empty = m::n::() -> ()`
(module-qualified call with missing target), and node keys are unique, so
two references to the same external symbol share one node. -/
theorem C3_amended :
    ∀ (b : CallGraphBuilder) (g : CallGraph), b.build = .ok g →
      (∀ p ∈ g.nodes, p.2.is_external = true →
          (∃ n, p.1 = externalId n) ∨
          (∃ m n, p.1 = generate_id m n Signature.empty)) ∧
      (g.nodes.map Prod.fst).Nodup := by
  intro b g h
  exact ⟨(good_build h).2.1, (good_build h).2.2⟩

/-- C3 (witness for the amended theorem): instantiation at the concrete
builder `cb3`, whose build result is `gC3`. -/
theorem C3_amended_witness :
    (∀ p ∈ gC3.nodes, p.2.is_external = true →
        (∃ n, p.1 = externalId n) ∨
        (∃ m n, p.1 = generate_id m n Signature.empty)) ∧
      (gC3.nodes.map Prod.fst).Nodup :=
  C3_amended cb3 gC3 (by rfl)
